/-
Verification of the Brainfucker compiler (src/codegen.rs, src/main.rs).

Shallow embedding.  `Codegen::generate` walks the source text once and emits
LLVM instructions into basic blocks with the inkwell builder.  We embed the
emitted program representation as a list of basic blocks, each a list of
instructions followed by one terminator.  The builder in codegen.rs only ever
positions itself at a freshly appended block (`gen_loop_entry`,
`gen_loop_end`), so the insertion point is always the youngest block; the
generator state below therefore keeps the finished blocks (`closed`, in
function order, block id = position, entry block = id 0) and the instruction
list of the block currently under construction (`curInsts`, whose id is
`closed.length`).  Every `build_*` call that produces an LLVM value gets a
fresh virtual register number (`nextReg`); instructions refer to registers by
number.  The two cells of mutable runtime state that codegen.rs routes through
memory — the `counter` alloca (the i32 pointer register) and the `calloc`'d
tape — are modelled as dedicated machine components, `gep` producing the cell
index (tape base abstracted to 0).

Machine integers are Nat with explicit reduction: i32 arithmetic is mod 2^32,
i8 cell arithmetic is mod 2^256 ... i.e. mod 256.  Indexing the tape outside
its bounds is undefined behaviour of the generated program (spec §3); the
model totalises it as read-0 / write-nothing.

The LLVM optimisation passes (`run_passes`) and everything in main.rs past
argument validation are the external backend / linker, out of scope (spec §1,
§6); translation is `generate`.  `Vec::pop().unwrap()` on an empty stack
panics, so `gen_loop_end` is Option-valued.
-/
import Mathlib

namespace Brainfucker

/-- One emitted LLVM instruction, as produced by the builder calls in
codegen.rs.  Registers are numbered virtual SSA values. -/
inductive Inst where
  | alloca : Inst                            -- build_alloca i32 (the counter slot)
  | storeCounterC : Nat → Inst               -- build_store counter, const
  | callCalloc : Nat → Nat → Inst            -- mem_ptr = calloc(num, size)
  | loadCounter : Nat → Inst                 -- dst = load counter
  | addI32 : Nat → Nat → Nat → Inst          -- dst = add i32 src, imm
  | subI32 : Nat → Nat → Nat → Inst          -- dst = sub i32 src, imm
  | storeCounter : Nat → Inst                -- store counter, src
  | gep : Nat → Nat → Inst                   -- dst = gep mem_ptr, [idx]
  | loadCell : Nat → Nat → Inst              -- dst = load i8, addr
  | addI8 : Nat → Nat → Nat → Inst           -- dst = add i8 src, imm
  | subI8 : Nat → Nat → Nat → Inst           -- dst = sub i8 src, imm
  | storeCell : Nat → Nat → Inst             -- store addr, src
  | zextI8I32 : Nat → Nat → Inst             -- dst = zext i8 src to i32
  | callPutchar : Nat → Inst                 -- call putchar(src)
  | callGetchar : Nat → Inst                 -- dst = call getchar()
  | truncI32I8 : Nat → Nat → Inst            -- dst = trunc i32 src to i8
  | icmpNe0 : Nat → Nat → Inst               -- dst = icmp ne src, 0
  | callFree : Inst                          -- call free(mem_ptr)
deriving DecidableEq, Repr

/-- A block terminator. -/
inductive Term where
  | br : Nat → Term                          -- build_unconditional_branch
  | condbr : Nat → Nat → Nat → Term          -- build_conditional_branch cond, then, else
  | ret : Nat → Term                         -- build_return
deriving DecidableEq, Repr

/-- The emitted program representation: basic blocks in function order
(block id = list position; entry block is id 0). -/
abbrev Program := List (List Inst × Term)

/-- Generator state: the `Codegen` struct of codegen.rs (builder position,
value numbering, `loop_stack`).  `closed` are the finished blocks; `curInsts`
is the block the builder is positioned at, with id `closed.length`. -/
structure GenState where
  closed : List (List Inst × Term)
  curInsts : List Inst
  nextReg : Nat
  loopStack : List Nat
deriving DecidableEq, Repr

/-- The `Codegen` value built in `compile_module`: entry block appended,
builder positioned at it, `loop_stack: Vec::new()`. -/
def initState : GenState := ⟨[], [], 0, []⟩

namespace Codegen

/-- Embeds `Codegen::gen_startup`: alloca the counter, store 0 to it, call
`calloc(heap_size, 1)` for the tape. -/
def gen_startup (heap_size : Nat) (s : GenState) : GenState :=
  { s with curInsts := s.curInsts ++
      [.alloca, .storeCounterC 0, .callCalloc heap_size 1] }

/-- Embeds `Codegen::gen_move_right`: load counter, add i32 1, store back. -/
def gen_move_right (s : GenState) : GenState :=
  { s with
    curInsts := s.curInsts ++
      [.loadCounter s.nextReg, .addI32 (s.nextReg + 1) s.nextReg 1,
       .storeCounter (s.nextReg + 1)]
    nextReg := s.nextReg + 2 }

/-- Embeds `Codegen::gen_move_left`: load counter, sub i32 1, store back. -/
def gen_move_left (s : GenState) : GenState :=
  { s with
    curInsts := s.curInsts ++
      [.loadCounter s.nextReg, .subI32 (s.nextReg + 1) s.nextReg 1,
       .storeCounter (s.nextReg + 1)]
    nextReg := s.nextReg + 2 }

/-- Embeds `Codegen::gen_output`: `get_cell_ptr` (load counter, gep), load the cell,
zext to i32, call putchar. -/
def gen_output (s : GenState) : GenState :=
  { s with
    curInsts := s.curInsts ++
      [.loadCounter s.nextReg, .gep (s.nextReg + 1) s.nextReg,
       .loadCell (s.nextReg + 2) (s.nextReg + 1),
       .zextI8I32 (s.nextReg + 3) (s.nextReg + 2),
       .callPutchar (s.nextReg + 3)]
    nextReg := s.nextReg + 4 }

/-- Embeds `Codegen::gen_input`: `get_cell_ptr`, call getchar, trunc to i8, store to
the cell. -/
def gen_input (s : GenState) : GenState :=
  { s with
    curInsts := s.curInsts ++
      [.loadCounter s.nextReg, .gep (s.nextReg + 1) s.nextReg,
       .callGetchar (s.nextReg + 2),
       .truncI32I8 (s.nextReg + 3) (s.nextReg + 2),
       .storeCell (s.nextReg + 1) (s.nextReg + 3)]
    nextReg := s.nextReg + 4 }

/-- Embeds `Codegen::gen_increment_cell`: `get_cell_ptr`, load cell, add i8 1, store
back. -/
def gen_increment_cell (s : GenState) : GenState :=
  { s with
    curInsts := s.curInsts ++
      [.loadCounter s.nextReg, .gep (s.nextReg + 1) s.nextReg,
       .loadCell (s.nextReg + 2) (s.nextReg + 1),
       .addI8 (s.nextReg + 3) (s.nextReg + 2) 1,
       .storeCell (s.nextReg + 1) (s.nextReg + 3)]
    nextReg := s.nextReg + 4 }

/-- Embeds `Codegen::gen_decrement_cell`: `get_cell_ptr`, load cell, sub i8 1, store
back. -/
def gen_decrement_cell (s : GenState) : GenState :=
  { s with
    curInsts := s.curInsts ++
      [.loadCounter s.nextReg, .gep (s.nextReg + 1) s.nextReg,
       .loadCell (s.nextReg + 2) (s.nextReg + 1),
       .subI8 (s.nextReg + 3) (s.nextReg + 2) 1,
       .storeCell (s.nextReg + 1) (s.nextReg + 3)]
    nextReg := s.nextReg + 4 }

/-- Embeds `Codegen::gen_loop_entry`: append a new block, branch into it
unconditionally, position at it, push it on `loop_stack`.  The new block's
function position is `closed.length + 1` (after the block being closed). -/
def gen_loop_entry (s : GenState) : GenState :=
  { closed := s.closed ++ [(s.curInsts, .br (s.closed.length + 1))]
    curInsts := []
    nextReg := s.nextReg
    loopStack := (s.closed.length + 1) :: s.loopStack }

/-- Embeds `Codegen::gen_loop_end`: load the cell, compare ≠ 0, append the after
block, `loop_stack.pop().unwrap()` (panic — `none` — when the stack is
empty), emit the conditional back-edge, position at the after block. -/
def gen_loop_end (s : GenState) : Option GenState :=
  match s.loopStack with
  | [] => none
  | loop_block :: rest =>
    some { closed := s.closed ++
             [(s.curInsts ++
                 [.loadCounter s.nextReg, .gep (s.nextReg + 1) s.nextReg,
                  .loadCell (s.nextReg + 2) (s.nextReg + 1),
                  .icmpNe0 (s.nextReg + 3) (s.nextReg + 2)],
               .condbr (s.nextReg + 3) loop_block (s.closed.length + 1))]
           curInsts := []
           nextReg := s.nextReg + 4
           loopStack := rest }

/-- Embeds `Codegen::gen_exit`: call `free(mem_ptr)`, return i32 0.  This closes the
last block and yields the finished program. -/
def gen_exit (s : GenState) : Program :=
  s.closed ++ [(s.curInsts ++ [.callFree], .ret 0)]

/-- The per-character dispatch of the `match ch` in `Codegen::generate`. -/
def dispatchChar (s : GenState) (c : Char) : Option GenState :=
  if c = '>' then some (gen_move_right s)
  else if c = '<' then some (gen_move_left s)
  else if c = '+' then some (gen_increment_cell s)
  else if c = '-' then some (gen_decrement_cell s)
  else if c = '.' then some (gen_output s)
  else if c = ',' then some (gen_input s)
  else if c = '[' then some (gen_loop_entry s)
  else if c = ']' then gen_loop_end s
  else some s

/-- The `for ch in code.chars()` loop of `Codegen::generate`; `none` when a
dispatch panicked. -/
def scanChars (s : GenState) : List Char → Option GenState
  | [] => some s
  | c :: cs =>
    match dispatchChar s c with
    | some t => scanChars t cs
    | none => none

/-- Embeds `Codegen::generate`: startup, scan, exit. -/
def generate (heap_size : Nat) (code : List Char) : Option Program :=
  (scanChars (gen_startup heap_size initState) code).map gen_exit

end Codegen

/-! ## Runtime semantics of the emitted program -/

/-- Runtime machine state of the generated program: the counter alloca (the
i32 pointer register, kept `< 2^32` by the i32 operations), the calloc'd
tape, the two I/O streams and the free-flag for the tape allocation. -/
structure Machine where
  counter : Nat
  tape : List Nat
  inp : List Nat
  outp : List Nat
  freed : Bool
deriving DecidableEq, Repr

/-- Machine state at entry to the generated `main`, before any startup
instruction has run. -/
def initMachine (input : List Nat) : Machine :=
  ⟨0, [], input, [], false⟩

/-- Register environment: virtual register number → value. -/
abbrev Env := Nat → Nat

/-- Semantics of one emitted instruction.  i32 arithmetic is mod `2^32`, i8
cell arithmetic mod 256; `gep` computes the cell index (tape base 0); reading
the tape out of range is UB of the generated program, totalised as 0, and an
out-of-range `List.set` is a no-op.  `getchar` on exhausted input returns C's
EOF, -1 as an i32, i.e. `2^32 - 1`. -/
def execInst (st : Env × Machine) : Inst → Env × Machine
  | .alloca => st
  | .storeCounterC v => (st.1, { st.2 with counter := v % 2 ^ 32 })
  | .callCalloc num size =>
      (st.1, { st.2 with tape := List.replicate (num * size) 0 })
  | .loadCounter dst => (Function.update st.1 dst st.2.counter, st.2)
  | .addI32 dst src imm =>
      (Function.update st.1 dst ((st.1 src + imm) % 2 ^ 32), st.2)
  | .subI32 dst src imm =>
      (Function.update st.1 dst ((st.1 src + (2 ^ 32 - imm % 2 ^ 32)) % 2 ^ 32), st.2)
  | .storeCounter src => (st.1, { st.2 with counter := st.1 src })
  | .gep dst idx => (Function.update st.1 dst (st.1 idx), st.2)
  | .loadCell dst addr =>
      (Function.update st.1 dst (st.2.tape.getD (st.1 addr) 0), st.2)
  | .addI8 dst src imm =>
      (Function.update st.1 dst ((st.1 src + imm) % 256), st.2)
  | .subI8 dst src imm =>
      (Function.update st.1 dst ((st.1 src + (256 - imm % 256)) % 256), st.2)
  | .storeCell addr src =>
      (st.1, { st.2 with tape := st.2.tape.set (st.1 addr) (st.1 src) })
  | .zextI8I32 dst src => (Function.update st.1 dst (st.1 src), st.2)
  | .callPutchar src => (st.1, { st.2 with outp := st.2.outp ++ [st.1 src] })
  | .callGetchar dst =>
      match st.2.inp with
      | [] => (Function.update st.1 dst (2 ^ 32 - 1), st.2)
      | x :: rest =>
          (Function.update st.1 dst (x % 2 ^ 32), { st.2 with inp := rest })
  | .truncI32I8 dst src => (Function.update st.1 dst (st.1 src % 256), st.2)
  | .icmpNe0 dst src =>
      (Function.update st.1 dst (if st.1 src = 0 then 0 else 1), st.2)
  | .callFree => (st.1, { st.2 with freed := true })

/-- Run a straight-line instruction list. -/
def execInsts (l : List Inst) (st : Env × Machine) : Env × Machine :=
  l.foldl execInst st

/-- Small-step execution of the block graph, `fuel` bounding the number of
block transitions; `none` means out of fuel or a dangling block id.  On
`ret v` the final machine and exit status are returned. -/
def run : Nat → Program → Nat → Env × Machine → Option (Machine × Nat)
  | 0, _, _, _ => none
  | fuel + 1, prog, bid, st =>
    match prog.get? bid with
    | none => none
    | some (insts, term) =>
      let st' := execInsts insts st
      match term with
      | .ret v => some (st'.2, v)
      | .br t => run fuel prog t st'
      | .condbr c t e => run fuel prog (if st'.1 c = 0 then e else t) st'

/-- The instructions a single emitter call appends to the block under
construction. -/
def emittedBy (f : GenState → GenState) (s : GenState) : List Inst :=
  ((f s).curInsts).drop s.curInsts.length

/-! ## Source-text bookkeeping (bracket counting, LIFO matching stack) -/

/-- Number of loop-entry brackets in a character list. -/
def opens : List Char → Nat
  | [] => 0
  | c :: cs => (if c = '[' then 1 else 0) + opens cs

/-- Number of loop-exit brackets in a character list. -/
def closes : List Char → Nat
  | [] => 0
  | c :: cs => (if c = ']' then 1 else 0) + closes cs

/-- Well-formed bracket nesting: no prefix closes more loops than it has
opened, and the whole text closes every loop it opens. -/
def Balanced (cs : List Char) : Prop :=
  (∀ i < cs.length, closes (cs.take i) ≤ opens (cs.take i)) ∧
    opens cs = closes cs

instance (cs : List Char) : Decidable (Balanced cs) := by
  unfold Balanced; infer_instance

/-- Specification-level LIFO matching stack: the state is (number of blocks
created so far beyond the entry block plus the entry block, i.e. the id of
the block currently under construction, stack of loop-entry block ids of the
still-open regions, innermost first).  `[` allocates a block and pushes it;
`]` allocates the after block and pops. -/
def specStep : Nat × List Nat → Char → Nat × List Nat
  | (b, st), c =>
    if c = '[' then (b + 1, (b + 1) :: st)
    else if c = ']' then (b + 1, st.tail)
    else (b, st)

/-- Fold of `specStep` over the source text. -/
def specScan (p : Nat × List Nat) : List Char → Nat × List Nat
  | [] => p
  | c :: cs => specScan (specStep p c) cs

/-! ## The CLI boundary (main.rs) -/

/-- Rust `str::parse::<u64>`: an optional leading `+`, then one or more
ASCII digits, value below `2^64`; anything else is an error. -/
def parseU64 (s : List Char) : Option Nat :=
  let digits := match s with
    | '+' :: rest => rest
    | _ => s
  if digits = [] then none
  else if digits.all (fun c => c.isDigit) then
    let v := digits.foldl (fun a c => a * 10 + (c.toNat - '0'.toNat)) 0
    if v < 2 ^ 64 then some v else none
  else none

/-- main.rs: `args.value_of("heap_size").unwrap_or("30000").parse::<u64>()`,
`?`-aborting on a parse error.  `none` models the abort. -/
def heapSizeArg (supplied : Option (List Char)) : Option Nat :=
  parseU64 (supplied.getD ['3', '0', '0', '0', '0'])

/-- main.rs up to `compile_module`: validate the heap-size argument (abort on
parse failure), then invoke translation with the parsed tape length.
`run_passes` and everything after `compile_module` is the external
backend/linker, out of scope. -/
def mainCompile (heapArg : Option (List Char)) (code : List Char) :
    Option Program :=
  (heapSizeArg heapArg).bind fun n => Codegen.generate n code

/-- The eight significant characters of the source language; `generate`
ignores every other character (its `match` falls through to `_ => {}`). -/
def significantChars : List Char := ['>', '<', '+', '-', '.', ',', '[', ']']

/-- Number of `free` calls in an emitted program. -/
def freeCount (p : Program) : Nat :=
  (p.map (fun b => b.1.count Inst.callFree)).sum

/-- Whether a terminator is a function return. -/
def isRet : Term → Bool
  | .ret _ => true
  | _ => false

/-- Generation invariant: no `free` has been emitted yet and no block closed
so far returns. -/
def NoFree (s : GenState) : Prop :=
  (∀ b ∈ s.closed, b.1.count Inst.callFree = 0 ∧ isRet b.2 = false) ∧
    s.curInsts.count Inst.callFree = 0

/-- The instruction list emitted by `k` successive `gen_move_right` calls
starting at register number `n`. -/
def rightsFrom : Nat → Nat → List Inst
  | 0, _ => []
  | k + 1, n =>
    [.loadCounter n, .addI32 (n + 1) n 1, .storeCounter (n + 1)] ++
      rightsFrom k (n + 2)

/-- The instruction list emitted by `k` successive `gen_move_left` calls
starting at register number `n`. -/
def leftsFrom : Nat → Nat → List Inst
  | 0, _ => []
  | k + 1, n =>
    [.loadCounter n, .subI32 (n + 1) n 1, .storeCounter (n + 1)] ++
      leftsFrom k (n + 2)

/-- One step of the `match ch` dispatch in `Codegen::generate`, as a
relation: `DispatchStep s c t` holds when scanning character `c` in builder
state `s` can produce builder state `t`. -/
inductive DispatchStep : GenState → Char → GenState → Prop where
  | moveRight (s) : DispatchStep s '>' (Codegen.gen_move_right s)
  | moveLeft (s) : DispatchStep s '<' (Codegen.gen_move_left s)
  | incCell (s) : DispatchStep s '+' (Codegen.gen_increment_cell s)
  | decCell (s) : DispatchStep s '-' (Codegen.gen_decrement_cell s)
  | output (s) : DispatchStep s '.' (Codegen.gen_output s)
  | input (s) : DispatchStep s ',' (Codegen.gen_input s)
  | loopEntry (s) : DispatchStep s '[' (Codegen.gen_loop_entry s)
  | loopEnd (s t) : Codegen.gen_loop_end s = some t → DispatchStep s ']' t
  | ignored (s c) : c ∉ significantChars → DispatchStep s c s

/-- A whole forward scan, one character at a time, as a relation. -/
inductive ScanSteps : GenState → List Char → GenState → Prop where
  | nil (s) : ScanSteps s [] s
  | cons {s c t u cs} : DispatchStep s c t → ScanSteps t cs u →
      ScanSteps s (c :: cs) u

/-- A complete run of `Codegen::generate` as a relation: startup, scan of the
whole source, finalization. -/
inductive GenerateRel (h : Nat) (code : List Char) : Program → Prop where
  | mk (t) : ScanSteps (Codegen.gen_startup h initState) code t →
      GenerateRel h code (Codegen.gen_exit t)

/-! ## Effects of single emitted sequences -/

theorem execInsts_append (l₁ l₂ : List Inst) (st : Env × Machine) :
    execInsts (l₁ ++ l₂) st = execInsts l₂ (execInsts l₁ st) :=
  List.foldl_append ..

theorem emittedBy_move_right (s : GenState) :
    emittedBy Codegen.gen_move_right s =
      [.loadCounter s.nextReg, .addI32 (s.nextReg + 1) s.nextReg 1,
       .storeCounter (s.nextReg + 1)] := by
  simp [emittedBy, Codegen.gen_move_right]

theorem emittedBy_move_left (s : GenState) :
    emittedBy Codegen.gen_move_left s =
      [.loadCounter s.nextReg, .subI32 (s.nextReg + 1) s.nextReg 1,
       .storeCounter (s.nextReg + 1)] := by
  simp [emittedBy, Codegen.gen_move_left]

theorem emittedBy_increment (s : GenState) :
    emittedBy Codegen.gen_increment_cell s =
      [.loadCounter s.nextReg, .gep (s.nextReg + 1) s.nextReg,
       .loadCell (s.nextReg + 2) (s.nextReg + 1),
       .addI8 (s.nextReg + 3) (s.nextReg + 2) 1,
       .storeCell (s.nextReg + 1) (s.nextReg + 3)] := by
  simp [emittedBy, Codegen.gen_increment_cell]

theorem emittedBy_decrement (s : GenState) :
    emittedBy Codegen.gen_decrement_cell s =
      [.loadCounter s.nextReg, .gep (s.nextReg + 1) s.nextReg,
       .loadCell (s.nextReg + 2) (s.nextReg + 1),
       .subI8 (s.nextReg + 3) (s.nextReg + 2) 1,
       .storeCell (s.nextReg + 1) (s.nextReg + 3)] := by
  simp [emittedBy, Codegen.gen_decrement_cell]

theorem exec_move_right_seq (n : Nat) (st : Env × Machine) :
    (execInsts [.loadCounter n, .addI32 (n + 1) n 1, .storeCounter (n + 1)]
        st).2 =
      { st.2 with counter := (st.2.counter + 1) % 2 ^ 32 } := by
  simp [execInsts, execInst, Function.update_same]

theorem exec_move_left_seq (n : Nat) (st : Env × Machine) :
    (execInsts [.loadCounter n, .subI32 (n + 1) n 1, .storeCounter (n + 1)]
        st).2 =
      { st.2 with counter := (st.2.counter + (2 ^ 32 - 1)) % 2 ^ 32 } := by
  simp [execInsts, execInst, Function.update_same]

theorem exec_increment_seq (n : Nat) (st : Env × Machine) :
    (execInsts
        [.loadCounter n, .gep (n + 1) n, .loadCell (n + 2) (n + 1),
         .addI8 (n + 3) (n + 2) 1, .storeCell (n + 1) (n + 3)]
        st).2 =
      { st.2 with tape := (st.2.tape.set st.2.counter
            ((st.2.tape.getD st.2.counter 0 + 1) % 256)) } := by
  simp [execInsts, execInst, Function.update_apply]

theorem exec_decrement_seq (n : Nat) (st : Env × Machine) :
    (execInsts
        [.loadCounter n, .gep (n + 1) n, .loadCell (n + 2) (n + 1),
         .subI8 (n + 3) (n + 2) 1, .storeCell (n + 1) (n + 3)]
        st).2 =
      { st.2 with tape := (st.2.tape.set st.2.counter
            ((st.2.tape.getD st.2.counter 0 + 255) % 256)) } := by
  simp [execInsts, execInst, Function.update_apply]

theorem set_getD_of_lt (l : List Nat) (n : Nat) (h : n < l.length) :
    l.set n (l.getD n 0) = l := by
  apply List.ext_getElem?
  intro i
  by_cases hi : n = i
  · subst hi
    simp [List.getElem?_set_self h, List.getElem?_eq_getElem h]
  · simp [List.getElem?_set_ne hi]

/-- C10: the pointer register is an i32 and `gen_move_right` /
`gen_move_left` use wrapping 32-bit arithmetic: the emitted
load-add-store (resp. load-sub-store) sequence takes the counter from p to
(p + 1) mod 2^32 (resp. (p - 1) mod 2^32, i.e. (p + 2^32 - 1) mod 2^32); in
particular moving left from pointer 0 leaves 2^32 - 1 in the register, not an
error. -/
theorem move_ops_wrap_i32 (s : GenState) (env : Env) (m : Machine) :
    (execInsts (emittedBy Codegen.gen_move_right s) (env, m)).2.counter =
        (m.counter + 1) % 2 ^ 32 ∧
    (execInsts (emittedBy Codegen.gen_move_left s) (env, m)).2.counter =
        (m.counter + (2 ^ 32 - 1)) % 2 ^ 32 ∧
    (m.counter = 0 →
      (execInsts (emittedBy Codegen.gen_move_left s) (env, m)).2.counter =
        2 ^ 32 - 1) := by
  rw [emittedBy_move_right, emittedBy_move_left, exec_move_right_seq,
    exec_move_left_seq]
  refine ⟨rfl, rfl, fun h => ?_⟩
  rw [h]
  norm_num

theorem move_ops_wrap_i32_witness :
    (execInsts (emittedBy Codegen.gen_move_left initState)
        (fun _ => 0, initMachine [])).2.counter = 2 ^ 32 - 1 :=
  (move_ops_wrap_i32 initState (fun _ => 0) (initMachine [])).2.2 rfl

/-- C4: on a cell holding v < 256, the emitted sequence of
`gen_increment_cell` computes (v + 1) mod 256 and that of
`gen_decrement_cell` computes (v - 1) mod 256 (as (v + 255) mod 256), and
running increment then decrement — or decrement then increment — with no
pointer movement between restores the machine exactly, including the
wraparound cases 255→0 and 0→255. -/
theorem inc_dec_cancel (s : GenState) (env : Env) (m : Machine)
    (hv : m.tape.getD m.counter 0 < 256) (hlen : m.counter < m.tape.length) :
    (execInsts (emittedBy Codegen.gen_increment_cell s)
        (env, m)).2.tape.getD m.counter 0 =
        (m.tape.getD m.counter 0 + 1) % 256 ∧
    (execInsts (emittedBy Codegen.gen_decrement_cell s)
        (env, m)).2.tape.getD m.counter 0 =
        (m.tape.getD m.counter 0 + 255) % 256 ∧
    (execInsts (emittedBy Codegen.gen_increment_cell s ++
        emittedBy Codegen.gen_decrement_cell (Codegen.gen_increment_cell s))
        (env, m)).2 = m ∧
    (execInsts (emittedBy Codegen.gen_decrement_cell s ++
        emittedBy Codegen.gen_increment_cell (Codegen.gen_decrement_cell s))
        (env, m)).2 = m := by
  have hset : ∀ w w', w' = m.tape.getD m.counter 0 →
      (m.tape.set m.counter w).set m.counter w' = m.tape := by
    intro w w' hw
    rw [List.set_set, hw, set_getD_of_lt _ _ hlen]
  refine ⟨?_, ?_, ?_, ?_⟩
  · rw [emittedBy_increment, exec_increment_seq]
    simp [List.getElem?_set_self hlen]
  · rw [emittedBy_decrement, exec_decrement_seq]
    simp [List.getElem?_set_self hlen]
  · rw [emittedBy_increment, emittedBy_decrement, execInsts_append,
      exec_decrement_seq, exec_increment_seq]
    simp only [List.getD_eq_getElem?_getD, List.getElem?_set_self hlen,
      Option.getD_some] at hv hset ⊢
    rw [show ((m.tape[m.counter]?.getD 0 + 1) % 256 + 255) % 256 =
        m.tape[m.counter]?.getD 0 by omega]
    rw [hset _ _ rfl]
  · rw [emittedBy_decrement, emittedBy_increment, execInsts_append,
      exec_increment_seq, exec_decrement_seq]
    simp only [List.getD_eq_getElem?_getD, List.getElem?_set_self hlen,
      Option.getD_some] at hv hset ⊢
    rw [show ((m.tape[m.counter]?.getD 0 + 255) % 256 + 1) % 256 =
        m.tape[m.counter]?.getD 0 by omega]
    rw [hset _ _ rfl]

theorem inc_dec_cancel_witness :
    (execInsts (emittedBy Codegen.gen_increment_cell initState ++
        emittedBy Codegen.gen_decrement_cell
          (Codegen.gen_increment_cell initState))
        (fun _ => 0, ⟨0, [255], [], [], false⟩)).2 = ⟨0, [255], [], [], false⟩ :=
  (inc_dec_cancel initState (fun _ => 0) ⟨0, [255], [], [], false⟩
    (by decide) (by decide)).2.2.1

theorem gen_move_right_iter (k : Nat) : ∀ s : GenState,
    Codegen.gen_move_right^[k] s =
      { s with curInsts := s.curInsts ++ rightsFrom k s.nextReg,
               nextReg := s.nextReg + 2 * k } := by
  induction k with
  | zero => intro s; simp [rightsFrom]
  | succ k ih =>
    intro s
    rw [Function.iterate_succ_apply, ih]
    simp [Codegen.gen_move_right, rightsFrom, GenState.mk.injEq]
    omega

theorem gen_move_left_iter (k : Nat) : ∀ s : GenState,
    Codegen.gen_move_left^[k] s =
      { s with curInsts := s.curInsts ++ leftsFrom k s.nextReg,
               nextReg := s.nextReg + 2 * k } := by
  induction k with
  | zero => intro s; simp [leftsFrom]
  | succ k ih =>
    intro s
    rw [Function.iterate_succ_apply, ih]
    simp [Codegen.gen_move_left, leftsFrom, GenState.mk.injEq]
    omega

theorem exec_rightsFrom (k : Nat) : ∀ (n : Nat) (st : Env × Machine),
    st.2.counter < 2 ^ 32 →
    (execInsts (rightsFrom k n) st).2 =
      { st.2 with counter := (st.2.counter + k) % 2 ^ 32 } := by
  induction k with
  | zero =>
    intro n st h
    simp only [rightsFrom, execInsts, List.foldl_nil, Nat.add_zero,
      Nat.mod_eq_of_lt h]
  | succ k ih =>
    intro n st h
    rw [rightsFrom, execInsts_append]
    have hstep := exec_move_right_seq n st
    have hlt : (execInsts [.loadCounter n, .addI32 (n + 1) n 1,
        .storeCounter (n + 1)] st).2.counter < 2 ^ 32 := by
      rw [hstep]; exact Nat.mod_lt _ (by norm_num)
    rw [ih (n + 2) _ hlt, hstep]
    simp only [Nat.mod_add_mod]
    rw [show st.2.counter + 1 + k = st.2.counter + (k + 1) by omega]

theorem exec_leftsFrom (k : Nat) : ∀ (n : Nat) (st : Env × Machine),
    st.2.counter < 2 ^ 32 →
    (execInsts (leftsFrom k n) st).2 =
      { st.2 with counter := (st.2.counter + k * (2 ^ 32 - 1)) % 2 ^ 32 } := by
  induction k with
  | zero =>
    intro n st h
    simp only [leftsFrom, execInsts, List.foldl_nil, Nat.zero_mul,
      Nat.add_zero, Nat.mod_eq_of_lt h]
  | succ k ih =>
    intro n st h
    rw [leftsFrom, execInsts_append]
    have hstep := exec_move_left_seq n st
    have hlt : (execInsts [.loadCounter n, .subI32 (n + 1) n 1,
        .storeCounter (n + 1)] st).2.counter < 2 ^ 32 := by
      rw [hstep]; exact Nat.mod_lt _ (by norm_num)
    rw [ih (n + 2) _ hlt, hstep]
    simp only [Nat.mod_add_mod]
    rw [show st.2.counter + (2 ^ 32 - 1) + k * (2 ^ 32 - 1) =
        st.2.counter + (k + 1) * (2 ^ 32 - 1) by ring]

/-- C5: executing the instructions emitted by `k` `gen_move_right` calls
followed by `k` `gen_move_left` calls returns the machine — in particular the
pointer register — to its original state, for every `k` and every in-range
pointer value. -/
theorem move_right_left_roundtrip (k : Nat) (s : GenState) (env : Env)
    (m : Machine) (h : m.counter < 2 ^ 32) :
    (execInsts
        (emittedBy
          (fun t => Codegen.gen_move_left^[k] (Codegen.gen_move_right^[k] t))
          s)
        (env, m)).2 = m := by
  have hemit :
      emittedBy
        (fun t => Codegen.gen_move_left^[k] (Codegen.gen_move_right^[k] t))
        s = rightsFrom k s.nextReg ++ leftsFrom k (s.nextReg + 2 * k) := by
    unfold emittedBy
    simp only [gen_move_right_iter k, gen_move_left_iter k]
    rw [List.append_assoc, List.drop_left]
  rw [hemit, execInsts_append]
  have hr := exec_rightsFrom k s.nextReg (env, m) h
  have hlt : (execInsts (rightsFrom k s.nextReg) (env, m)).2.counter <
      2 ^ 32 := by
    rw [hr]; exact Nat.mod_lt _ (by norm_num)
  rw [exec_leftsFrom k (s.nextReg + 2 * k) _ hlt, hr]
  simp only [Nat.mod_add_mod]
  rw [show m.counter + k + k * (2 ^ 32 - 1) = m.counter + k * 2 ^ 32 from by
    omega]
  rw [Nat.add_mul_mod_self_right, Nat.mod_eq_of_lt h]

theorem move_right_left_roundtrip_witness :
    (execInsts
        (emittedBy
          (fun t => Codegen.gen_move_left^[3] (Codegen.gen_move_right^[3] t))
          initState)
        (fun _ => 0, initMachine [])).2 = initMachine [] :=
  move_right_left_roundtrip 3 initState (fun _ => 0) (initMachine [])
    (by decide)

theorem dispatchChar_ignored (s : GenState) (c : Char)
    (h : c ∉ significantChars) : Codegen.dispatchChar s c = some s := by
  simp only [significantChars, List.mem_cons, List.not_mem_nil, or_false,
    not_or] at h
  obtain ⟨h1, h2, h3, h4, h5, h6, h7, h8⟩ := h
  simp [Codegen.dispatchChar, h1, h2, h3, h4, h5, h6, h7, h8]

theorem scanChars_ignored : ∀ (cs : List Char) (s : GenState),
    (∀ c ∈ cs, c ∉ significantChars) → Codegen.scanChars s cs = some s := by
  intro cs
  induction cs with
  | nil => intro s _; rfl
  | cons c cs ih =>
    intro s hcs
    rw [Codegen.scanChars, dispatchChar_ignored s c (hcs c (List.mem_cons_self c cs))]
    exact ih s fun c' hc' => hcs c' (List.mem_cons_of_mem _ hc')

/-- C7: a source text containing none of the eight significant characters
compiles to exactly the no-op program: one block that allocates the tape,
releases it, and returns 0, with no other operation emitted. -/
theorem ignored_only_noop (h : Nat) (code : List Char)
    (hig : ∀ c ∈ code, c ∉ significantChars) :
    Codegen.generate h code =
      some [([.alloca, .storeCounterC 0, .callCalloc h 1, .callFree],
             .ret 0)] := by
  rw [Codegen.generate, scanChars_ignored code _ hig]
  rfl

theorem ignored_only_noop_witness :
    Codegen.generate 7 ['h', 'i', '\n'] =
      some [([.alloca, .storeCounterC 0, .callCalloc 7 1, .callFree],
             .ret 0)] :=
  ignored_only_noop 7 ['h', 'i', '\n'] (by decide)

theorem dispatchChar_noFree (s t : GenState) (c : Char)
    (hd : Codegen.dispatchChar s c = some t) (hs : NoFree s) : NoFree t := by
  obtain ⟨hcl, hcur⟩ := hs
  unfold Codegen.dispatchChar at hd
  split_ifs at hd with h1 h2 h3 h4 h5 h6 h7 h8
  case pos =>
    cases hd
    exact ⟨hcl, by simp [Codegen.gen_move_right, List.count_append, hcur]⟩
  case pos =>
    cases hd
    exact ⟨hcl, by simp [Codegen.gen_move_left, List.count_append, hcur]⟩
  case pos =>
    cases hd
    exact ⟨hcl, by simp [Codegen.gen_increment_cell, List.count_append, hcur]⟩
  case pos =>
    cases hd
    exact ⟨hcl, by simp [Codegen.gen_decrement_cell, List.count_append, hcur]⟩
  case pos =>
    cases hd
    exact ⟨hcl, by simp [Codegen.gen_output, List.count_append, hcur]⟩
  case pos =>
    cases hd
    exact ⟨hcl, by simp [Codegen.gen_input, List.count_append, hcur]⟩
  case pos =>
    cases hd
    refine ⟨?_, rfl⟩
    intro b hb
    simp only [Codegen.gen_loop_entry, List.mem_append,
      List.mem_singleton] at hb
    rcases hb with hb | hb
    · exact hcl b hb
    · subst hb; exact ⟨hcur, rfl⟩
  case pos =>
    unfold Codegen.gen_loop_end at hd
    cases hst : s.loopStack with
    | nil => rw [hst] at hd; cases hd
    | cons lb rest =>
      rw [hst] at hd
      cases hd
      refine ⟨?_, rfl⟩
      intro b hb
      simp only [List.mem_append, List.mem_singleton] at hb
      rcases hb with hb | hb
      · exact hcl b hb
      · subst hb
        constructor
        · simp [List.count_append, hcur]
        · rfl
  case neg =>
    cases hd
    exact ⟨hcl, hcur⟩

theorem scanChars_noFree : ∀ (cs : List Char) (s t : GenState),
    Codegen.scanChars s cs = some t → NoFree s → NoFree t := by
  intro cs
  induction cs with
  | nil => intro s t hst hs; cases hst; exact hs
  | cons c cs ih =>
    intro s t hst hs
    rw [Codegen.scanChars] at hst
    cases hd : Codegen.dispatchChar s c with
    | none => rw [hd] at hst; cases hst
    | some u =>
      rw [hd] at hst
      exact ih u t hst (dispatchChar_noFree s u c hd hs)

/-- C8: whenever translation completes, the emitted program contains exactly
one `free` of the tape; it is the last instruction of the final block,
emitted after the whole scan, and is immediately followed by `ret 0`; no
earlier block returns, so this is the single exit path. -/
theorem single_free (h : Nat) (code : List Char) (prog : Program)
    (hp : Codegen.generate h code = some prog) :
    freeCount prog = 1 ∧
    (∃ l, prog.getLast? = some (l ++ [Inst.callFree], Term.ret 0)) ∧
    ∀ b ∈ prog.dropLast, isRet b.2 = false := by
  rw [Codegen.generate] at hp
  cases hscan : Codegen.scanChars (Codegen.gen_startup h initState) code with
  | none => rw [hscan] at hp; cases hp
  | some t =>
    rw [hscan] at hp
    simp only [Option.map_some'] at hp
    obtain rfl : Codegen.gen_exit t = prog := Option.some.inj hp
    have hstart : NoFree (Codegen.gen_startup h initState) := by
      constructor
      · intro b hb; cases hb
      · rfl
    obtain ⟨hcl, hcur⟩ := scanChars_noFree code _ t hscan hstart
    unfold Codegen.gen_exit
    refine ⟨?_, ?_, ?_⟩
    · unfold freeCount
      rw [List.map_append, List.sum_append]
      have hz : (t.closed.map (fun b => b.1.count Inst.callFree)).sum = 0 := by
        apply List.sum_eq_zero
        intro x hx
        obtain ⟨b, hb, rfl⟩ := List.mem_map.mp hx
        exact (hcl b hb).1
      rw [hz]
      simp [List.count_append, hcur]
    · exact ⟨t.curInsts, List.getLast?_concat _⟩
    · rw [List.dropLast_concat]
      intro b hb
      exact (hcl b hb).2

theorem single_free_witness :
    freeCount [([Inst.alloca, Inst.storeCounterC 0, Inst.callCalloc 1 1,
        Inst.callFree], Term.ret 0)] = 1 ∧
    (∃ l, ([([Inst.alloca, Inst.storeCounterC 0, Inst.callCalloc 1 1,
        Inst.callFree], Term.ret 0)] : Program).getLast? =
        some (l ++ [Inst.callFree], Term.ret 0)) ∧
    ∀ b ∈ ([([Inst.alloca, Inst.storeCounterC 0, Inst.callCalloc 1 1,
        Inst.callFree], Term.ret 0)] : Program).dropLast, isRet b.2 = false :=
  single_free 1 [] _ rfl


theorem opens_openC (cs : List Char) : opens ('[' :: cs) = 1 + opens cs := by
  rw [opens, if_pos rfl]

theorem opens_closeC (cs : List Char) : opens (']' :: cs) = opens cs := by
  rw [opens, if_neg (by decide : ¬(']' : Char) = '[')]
  exact Nat.zero_add _

theorem opens_otherC (c : Char) (cs : List Char) (h : c ≠ '[') :
    opens (c :: cs) = opens cs := by
  rw [opens, if_neg h]
  exact Nat.zero_add _

theorem closes_closeC (cs : List Char) : closes (']' :: cs) = 1 + closes cs := by
  rw [closes, if_pos rfl]

theorem closes_openC (cs : List Char) : closes ('[' :: cs) = closes cs := by
  rw [closes, if_neg (by decide : ¬('[' : Char) = ']')]
  exact Nat.zero_add _

theorem closes_otherC (c : Char) (cs : List Char) (h : c ≠ ']') :
    closes (c :: cs) = closes cs := by
  rw [closes, if_neg h]
  exact Nat.zero_add _

theorem dispatchChar_other (s : GenState) (c : Char) (h1 : c ≠ '[')
    (h2 : c ≠ ']') :
    ∃ t, Codegen.dispatchChar s c = some t ∧ t.loopStack = s.loopStack ∧
      t.closed = s.closed := by
  unfold Codegen.dispatchChar
  split_ifs <;> exact ⟨_, rfl, rfl, rfl⟩

theorem specStep_openC (b : Nat) (st : List Nat) :
    specStep (b, st) '[' = (b + 1, (b + 1) :: st) := by
  rw [specStep, if_pos rfl]

theorem specStep_closeC (b : Nat) (st : List Nat) :
    specStep (b, st) ']' = (b + 1, st.tail) := by
  rw [specStep, if_neg (by decide : ¬(']' : Char) = '['), if_pos rfl]

theorem specStep_otherC (b : Nat) (st : List Nat) (c : Char) (h1 : c ≠ '[')
    (h2 : c ≠ ']') : specStep (b, st) c = (b, st) := by
  rw [specStep, if_neg h1, if_neg h2]

/-- Main scan invariant: as long as no prefix closes more loops than are
open, the scan succeeds, the generator's `loop_stack` tracks the
specification-level LIFO stack `specScan` exactly, the number of closed
blocks tracks its block counter, and the stack depth is the running bracket
balance. -/
theorem scanChars_balanced : ∀ (cs : List Char) (s : GenState),
    (∀ p q, cs = p ++ q → closes p ≤ opens p + s.loopStack.length) →
    ∃ t, Codegen.scanChars s cs = some t ∧
      t.loopStack = (specScan (s.closed.length, s.loopStack) cs).2 ∧
      t.closed.length = (specScan (s.closed.length, s.loopStack) cs).1 ∧
      t.loopStack.length + closes cs = s.loopStack.length + opens cs := by
  intro cs
  induction cs with
  | nil =>
    intro s _
    exact ⟨s, rfl, rfl, rfl, by simp [opens, closes]⟩
  | cons c cs ih =>
    intro s hpre
    by_cases hb1 : c = '['
    · subst hb1
      have hd : Codegen.dispatchChar s '[' =
          some (Codegen.gen_loop_entry s) := rfl
      have hcl1 : (Codegen.gen_loop_entry s).closed.length =
          s.closed.length + 1 := by
        simp [Codegen.gen_loop_entry]
      have hst1 : (Codegen.gen_loop_entry s).loopStack =
          (s.closed.length + 1) :: s.loopStack := rfl
      obtain ⟨t, hsc, hst, hcl, hlen⟩ :=
        ih (Codegen.gen_loop_entry s) (fun p q hpq => by
          have hh := hpre ('[' :: p) q (by rw [hpq]; rfl)
          rw [opens_openC, closes_openC] at hh
          rw [hst1, List.length_cons]
          omega)
      rw [hst1] at hlen
      rw [hst1, hcl1] at hst hcl
      refine ⟨t, ?_, ?_, ?_, ?_⟩
      · rw [Codegen.scanChars, hd]; exact hsc
      · rw [hst, specScan, specStep_openC]
      · rw [hcl, specScan, specStep_openC]
      · rw [opens_openC, closes_openC]
        rw [List.length_cons] at hlen
        omega
    · by_cases hb2 : c = ']'
      · subst hb2
        have hone := hpre [']'] cs rfl
        rw [show closes [']'] = 1 from rfl, show opens [']'] = 0 from rfl]
          at hone
        cases hst0 : s.loopStack with
        | nil => rw [hst0] at hone; simp at hone
        | cons lb rest =>
          have hd : Codegen.dispatchChar s ']' = Codegen.gen_loop_end s := rfl
          obtain ⟨s', hle⟩ : ∃ s', Codegen.gen_loop_end s = some s' := by
            unfold Codegen.gen_loop_end
            rw [hst0]
            exact ⟨_, rfl⟩
          have hs1 : s'.loopStack = rest := by
            unfold Codegen.gen_loop_end at hle
            rw [hst0] at hle
            cases hle
            rfl
          have hs2 : s'.closed.length = s.closed.length + 1 := by
            unfold Codegen.gen_loop_end at hle
            rw [hst0] at hle
            cases hle
            simp [List.length_append]
          obtain ⟨t, hsc, hstk, hcl, hlen⟩ := ih s' (fun p q hpq => by
            have hh := hpre (']' :: p) q (by rw [hpq]; rfl)
            rw [closes_closeC, opens_closeC] at hh
            rw [hst0, List.length_cons] at hh
            rw [hs1]
            omega)
          rw [hs1] at hlen
          rw [hs1, hs2] at hstk hcl
          refine ⟨t, ?_, ?_, ?_, ?_⟩
          · rw [Codegen.scanChars, hd, hle]; exact hsc
          · rw [hstk, specScan, specStep_closeC, List.tail_cons]
          · rw [hcl, specScan, specStep_closeC, List.tail_cons]
          · rw [closes_closeC, opens_closeC, List.length_cons]
            omega
      · obtain ⟨u, hd, hustk, hucl⟩ := dispatchChar_other s c hb1 hb2
        obtain ⟨t, hsc, hstk, hcl, hlen⟩ := ih u (fun p q hpq => by
          have hh := hpre (c :: p) q (by rw [hpq]; rfl)
          rw [opens_otherC _ _ hb1, closes_otherC _ _ hb2] at hh
          rw [hustk]
          omega)
        rw [hustk] at hlen
        rw [hustk, hucl] at hstk hcl
        refine ⟨t, ?_, ?_, ?_, ?_⟩
        · rw [Codegen.scanChars, hd]; exact hsc
        · rw [hstk, specScan, specStep_otherC _ _ _ hb1 hb2]
        · rw [hcl, specScan, specStep_otherC _ _ _ hb1 hb2]
        · rw [opens_otherC _ _ hb1, closes_otherC _ _ hb2]
          omega

/-- C6: for a source text with balanced bracket nesting, the Loop Structuring
Stack is empty before the first character and empty after the last one, and
at every intermediate point of the single forward scan it equals the
specification-level LIFO stack of still-open loop-entry blocks (innermost
first) — so every `]` pops exactly the block opened by the most recently
opened, still-open `[`. -/
theorem loop_stack_lifo (h : Nat) (code : List Char) (hb : Balanced code) :
    (Codegen.gen_startup h initState).loopStack = [] ∧
    (∀ p q, code = p ++ q →
      ∃ t, Codegen.scanChars (Codegen.gen_startup h initState) p = some t ∧
        t.loopStack = (specScan (0, []) p).2) ∧
    (∃ t, Codegen.scanChars (Codegen.gen_startup h initState) code = some t ∧
      t.loopStack = []) := by
  have hpref : ∀ p q, code = p ++ q → closes p ≤ opens p := by
    intro p q hpq
    rcases q with _ | ⟨a, q'⟩
    · rw [List.append_nil] at hpq
      subst hpq
      exact le_of_eq hb.2.symm
    · have hlen : p.length < code.length := by
        rw [hpq, List.length_append, List.length_cons]
        omega
      have hpt : p = code.take p.length := by rw [hpq, List.take_left]
      rw [hpt]
      exact hb.1 p.length hlen
  refine ⟨rfl, ?_, ?_⟩
  · intro p q hpq
    obtain ⟨t, hsc, hstk, -, -⟩ :=
      scanChars_balanced p (Codegen.gen_startup h initState)
        (fun p' q' hp' => by
          have := hpref p' (q' ++ q) (by rw [hpq, hp', List.append_assoc])
          simpa using this)
    exact ⟨t, hsc, hstk⟩
  · obtain ⟨t, hsc, -, -, hlen⟩ :=
      scanChars_balanced code (Codegen.gen_startup h initState)
        (fun p' q' hp' => by
          have := hpref p' q' hp'
          simpa using this)
    refine ⟨t, hsc, ?_⟩
    have h2 := hb.2
    have : t.loopStack.length = 0 := by
      simp only [show (Codegen.gen_startup h initState).loopStack = []
        from rfl, List.length_nil] at hlen
      omega
    exact List.eq_nil_of_length_eq_zero this

theorem loop_stack_lifo_witness :
    (Codegen.gen_startup 5 initState).loopStack = [] ∧
    (∀ p q, (['[', ']'] : List Char) = p ++ q →
      ∃ t, Codegen.scanChars (Codegen.gen_startup 5 initState) p = some t ∧
        t.loopStack = (specScan (0, []) p).2) ∧
    (∃ t, Codegen.scanChars (Codegen.gen_startup 5 initState) ['[', ']'] =
        some t ∧ t.loopStack = []) :=
  loop_stack_lifo 5 ['[', ']'] (by decide)

theorem scanChars_unmatched : ∀ (cs : List Char) (s : GenState),
    (∃ p q, cs = p ++ q ∧ s.loopStack.length + opens p < closes p) →
    Codegen.scanChars s cs = none := by
  intro cs
  induction cs with
  | nil =>
    intro s hex
    obtain ⟨p, q, hpq, hlt⟩ := hex
    obtain ⟨rfl, rfl⟩ := List.append_eq_nil.mp hpq.symm
    simp [opens, closes] at hlt
  | cons c cs ih =>
    intro s hex
    obtain ⟨p, q, hpq, hlt⟩ := hex
    cases p with
    | nil =>
      simp [opens, closes] at hlt
    | cons a p' =>
      rw [List.cons_append] at hpq
      injection hpq with h1 h2
      subst h1
      by_cases hb1 : c = '['
      · subst hb1
        have hd : Codegen.dispatchChar s '[' =
            some (Codegen.gen_loop_entry s) := rfl
        rw [Codegen.scanChars, hd]
        apply ih
        refine ⟨p', q, h2, ?_⟩
        rw [opens_openC, closes_openC] at hlt
        have hg : (Codegen.gen_loop_entry s).loopStack.length =
            s.loopStack.length + 1 := by
          simp [Codegen.gen_loop_entry]
        omega
      · by_cases hb2 : c = ']'
        · subst hb2
          rw [closes_closeC, opens_closeC] at hlt
          cases hst0 : s.loopStack with
          | nil =>
            have hd : Codegen.dispatchChar s ']' = none := by
              show Codegen.gen_loop_end s = none
              unfold Codegen.gen_loop_end
              rw [hst0]
            rw [Codegen.scanChars, hd]
          | cons lb rest =>
            obtain ⟨s', hle⟩ : ∃ s', Codegen.gen_loop_end s = some s' := by
              unfold Codegen.gen_loop_end
              rw [hst0]
              exact ⟨_, rfl⟩
            have hs1 : s'.loopStack = rest := by
              unfold Codegen.gen_loop_end at hle
              rw [hst0] at hle
              cases hle
              rfl
            rw [Codegen.scanChars,
              show Codegen.dispatchChar s ']' = Codegen.gen_loop_end s
                from rfl, hle]
            apply ih
            refine ⟨p', q, h2, ?_⟩
            rw [hst0, List.length_cons] at hlt
            rw [hs1]
            omega
        · obtain ⟨u, hd, hustk, -⟩ := dispatchChar_other s c hb1 hb2
          rw [Codegen.scanChars, hd]
          apply ih
          refine ⟨p', q, h2, ?_⟩
          rw [opens_otherC _ _ hb1, closes_otherC _ _ hb2] at hlt
          rw [hustk]
          exact hlt

/-- C2 counterexample: on the source text `]` — a loop-exit bracket scanned
with an empty Loop Structuring Stack — the translation does not complete
normally with an (invalid) emitted program; `loop_stack.pop().unwrap()`
panics and no program is produced. -/
theorem extra_close_panics : Codegen.generate 30000 [']'] = none := rfl

/-- C2 amended: a source text in which some prefix contains more `]` than `[`
makes the translation fail (a panic on popping the empty loop stack) instead
of completing the scan; no emitted program, valid or invalid, is produced. -/
theorem unmatched_close_fails (h : Nat) (code : List Char)
    (hbad : ∃ p q, code = p ++ q ∧ opens p < closes p) :
    Codegen.generate h code = none := by
  obtain ⟨p, q, hpq, hlt⟩ := hbad
  have h0 : (Codegen.gen_startup h initState).loopStack.length = 0 := rfl
  rw [Codegen.generate,
    scanChars_unmatched code _ ⟨p, q, hpq, by rw [h0]; omega⟩]
  rfl

theorem unmatched_close_fails_witness : Codegen.generate 1 [']'] = none :=
  unmatched_close_fails 1 [']'] ⟨[']'], [], rfl, by decide⟩

theorem dispatchStep_iff (s t : GenState) (c : Char) :
    DispatchStep s c t ↔ Codegen.dispatchChar s c = some t := by
  constructor
  · intro hd
    cases hd with
    | moveRight => rfl
    | moveLeft => rfl
    | incCell => rfl
    | decCell => rfl
    | output => rfl
    | input => rfl
    | loopEntry => rfl
    | loopEnd _ hend => exact hend
    | ignored _ hmem => exact dispatchChar_ignored _ _ hmem
  · intro hd
    unfold Codegen.dispatchChar at hd
    split_ifs at hd with h1 h2 h3 h4 h5 h6 h7 h8
    · cases hd; subst h1; exact DispatchStep.moveRight s
    · cases hd; subst h2; exact DispatchStep.moveLeft s
    · cases hd; subst h3; exact DispatchStep.incCell s
    · cases hd; subst h4; exact DispatchStep.decCell s
    · cases hd; subst h5; exact DispatchStep.output s
    · cases hd; subst h6; exact DispatchStep.input s
    · cases hd; subst h7; exact DispatchStep.loopEntry s
    · subst h8; exact DispatchStep.loopEnd s t hd
    · cases hd
      refine DispatchStep.ignored s c ?_
      simp only [significantChars, List.mem_cons, List.not_mem_nil, or_false,
        not_or]
      exact ⟨h1, h2, h3, h4, h5, h6, h7, h8⟩

theorem scanSteps_iff : ∀ (cs : List Char) (s t : GenState),
    ScanSteps s cs t ↔ Codegen.scanChars s cs = some t := by
  intro cs
  induction cs with
  | nil =>
    intro s t
    constructor
    · intro h; cases h; rfl
    · intro h
      rw [Codegen.scanChars] at h
      cases h
      exact ScanSteps.nil s
  | cons c cs ih =>
    intro s t
    constructor
    · intro h
      cases h with
      | cons hd hrest =>
        rw [Codegen.scanChars, (dispatchStep_iff ..).mp hd]
        exact (ih _ _).mp hrest
    · intro h
      rw [Codegen.scanChars] at h
      cases hd : Codegen.dispatchChar s c with
      | none => rw [hd] at h; cases h
      | some u =>
        rw [hd] at h
        exact ScanSteps.cons ((dispatchStep_iff s u c).mpr hd) ((ih u t).mpr h)

/-- C9: translation is deterministic — any two runs of the generator on the
same tape size and the same source text produce identical emitted program
representations. -/
theorem translation_deterministic (h : Nat) (code : List Char)
    (p₁ p₂ : Program) (h₁ : GenerateRel h code p₁)
    (h₂ : GenerateRel h code p₂) : p₁ = p₂ := by
  cases h₁ with
  | mk t₁ hs₁ =>
    cases h₂ with
    | mk t₂ hs₂ =>
      have e₁ := (scanSteps_iff code _ t₁).mp hs₁
      have e₂ := (scanSteps_iff code _ t₂).mp hs₂
      rw [e₁] at e₂
      cases e₂
      rfl

theorem translation_deterministic_witness :
    Codegen.gen_exit (Codegen.gen_increment_cell
        (Codegen.gen_startup 2 initState)) =
      Codegen.gen_exit (Codegen.gen_increment_cell
        (Codegen.gen_startup 2 initState)) :=
  translation_deterministic 2 ['+'] _ _
    (GenerateRel.mk _ (ScanSteps.cons (DispatchStep.incCell _)
      (ScanSteps.nil _)))
    (GenerateRel.mk _ (ScanSteps.cons (DispatchStep.incCell _)
      (ScanSteps.nil _)))

/-- C1, evaluated at the failing input: compiling `[>]` with tape length 3
and running the generated program on the all-zero tape — so the cell at the
pointer is 0 when `[` is reached — terminates with exit status 0 but with
the pointer register at 1: the loop body `>` was executed once, because
`gen_loop_entry` emits an unconditional branch into the loop block and the
cell test is emitted only at the `]`.  Zero-iteration loop semantics, as the
claim states, would leave the pointer register at 0. -/
theorem loop_entered_with_zero_runs_body :
    (Codegen.generate 3 ['[', '>', ']']).map
        (fun prog => run 10 prog 0 (fun _ => 0, initMachine [])) =
      some (some (⟨1, [0, 0, 0], [], [], true⟩, 0)) := rfl

/-- C3 counterexample: a requested heap size of 0 — a non-positive value —
is not rejected and does not abort: the string "0" parses as a u64 and
translation is invoked with tape length 0, emitting a calloc of 0 bytes. -/
theorem heap_size_zero_accepted :
    heapSizeArg (some ['0']) = some 0 ∧
    mainCompile (some ['0']) [] =
      some [([.alloca, .storeCounterC 0, .callCalloc 0 1, .callFree],
             .ret 0)] := ⟨rfl, rfl⟩

/-- C3 amended: main.rs validates the heap-size argument only as far as
unsigned 64-bit parsing: strings that fail to parse (negative numbers,
non-numeric text) abort before any translation, but there is no further range
check — "0" is accepted and translation is invoked with tape length N = 0. -/
theorem heap_size_u64_validation_only (code : List Char) :
    mainCompile (some ['-', '1']) code = none ∧
    mainCompile (some ['x']) code = none ∧
    heapSizeArg (some ['0']) = some 0 ∧
    mainCompile (some ['0']) code = Codegen.generate 0 code :=
  ⟨rfl, rfl, rfl, rfl⟩

end Brainfucker
